import Mathlib

/-!
Verification development for the CO2 accounting tool's matching and
aggregation core (src/logic.py and src/analytics.py).

Modelling conventions:
* Python strings are `List Char`; dictionary field names are Lean `String`.
* Python dicts are association lists with Python's update discipline
  (assignment to an existing key updates it in place, otherwise appends).
* Python floats are modelled as `ℚ`.  `float(s)` is modelled by
  `parseFloat?`, covering finite decimal/exponent literals (the inputs the
  repository feeds it); the similarity cutoff comparison `>= 0.7` is exact
  in `ℚ`, which agrees with the float comparison for all realistic string
  lengths.
* Exceptions (Python `KeyError` escaping the code's `except ValueError`
  handlers, or a type error in the report loop) are modelled by
  `Except Unit`, `.error ()` meaning "an exception propagates".
* `difflib.get_close_matches(word, cats, n=1, cutoff=0.7)` is modelled by
  `closeMatch1` using the documented `SequenceMatcher.ratio` semantics
  (Ratcliff/Obershelp: twice the total size of the matching blocks over the
  total length), with `a` the candidate category and `b` the word, and the
  `max` over `(score, string)` pairs used by `heapq.nlargest(1, ...)`.
-/

namespace CO2

set_option maxRecDepth 100000

/-! ## Python string primitives -/

/-- Python `str.strip()`: drop whitespace from both ends. -/
def pyStrip (s : List Char) : List Char :=
  ((s.dropWhile Char.isWhitespace).reverse.dropWhile Char.isWhitespace).reverse

/-- Python `str.lower()` (ASCII case folding, which covers the repository's data). -/
def pyLower (s : List Char) : List Char :=
  s.map Char.toLower

/-- The normalization used by the matcher: `desc.lower().strip()`. -/
def pyNormalize (s : List Char) : List Char :=
  pyStrip (pyLower s)

/-- Python `str.split()` with no argument: split on whitespace runs, no empty pieces. -/
def pySplit (s : List Char) : List (List Char) :=
  (s.splitOnP Char.isWhitespace).filter (fun w => !w.isEmpty)

/-- Python `needle in hay` on strings: contiguous-substring test. -/
def isSubstr (n : List Char) : List Char → Bool
  | [] => n.isEmpty
  | h :: t => n.isPrefixOf (h :: t) || isSubstr n t

/-- Python string `<` (lexicographic by code point), used by the
`(score, string)` tuple comparison inside `heapq.nlargest`. -/
def lexLt : List Char → List Char → Bool
  | [], [] => false
  | [], _ :: _ => true
  | _ :: _, [] => false
  | a :: as, b :: bs => if a < b then true else if b < a then false else lexLt as bs

/-! ## Numeric parsing (`float(s)`) -/

/-- Value of a digit string, most significant first. -/
def digitsVal (ds : List Char) : ℕ :=
  ds.foldl (fun a c => 10 * a + (c.toNat - 48)) 0

/-- Parse the optional exponent suffix of a float literal. -/
def parseExp : List Char → Option ℤ
  | [] => some 0
  | c :: r =>
    if c = 'e' ∨ c = 'E' then
      let (sgn, r') : ℤ × List Char :=
        match r with
        | '+' :: rr => (1, rr)
        | '-' :: rr => (-1, rr)
        | _ => (1, r)
      let ds := r'.takeWhile Char.isDigit
      if ds.isEmpty || !(r'.dropWhile Char.isDigit).isEmpty then none
      else some (sgn * (digitsVal ds : ℤ))
    else none

/-- Python `float(s)` on a string, for finite decimal literals:
optional surrounding whitespace, optional sign, digits with an optional
fractional part (at least one digit overall), optional exponent.
Returns `none` exactly when `float` raises `ValueError` on such inputs. -/
def parseFloat? (s : List Char) : Option ℚ :=
  let t := pyStrip s
  let (sgn, t₁) : ℚ × List Char :=
    match t with
    | '+' :: r => (1, r)
    | '-' :: r => (-1, r)
    | _ => (1, t)
  let ip := t₁.takeWhile Char.isDigit
  let r₁ := t₁.dropWhile Char.isDigit
  match r₁ with
  | '.' :: r₂ =>
    let fp := r₂.takeWhile Char.isDigit
    let r₃ := r₂.dropWhile Char.isDigit
    if ip.isEmpty && fp.isEmpty then none
    else
      (parseExp r₃).map (fun ex =>
        sgn * ((digitsVal ip : ℚ) + (digitsVal fp : ℚ) / 10 ^ fp.length) * 10 ^ ex)
  | _ =>
    if ip.isEmpty then none
    else (parseExp r₁).map (fun ex => sgn * (digitsVal ip : ℚ) * 10 ^ ex)

/-! ## Records and Python dict operations -/

/-- A CSV row as produced by the loader: field name to string value. -/
abbrev SRec := List (String × List Char)

/-- Values held by an enriched row: original string fields plus numeric
derived fields. -/
inductive Value where
  | str : List Char → Value
  | num : ℚ → Value
deriving DecidableEq

/-- An enriched row: field name to string-or-number value. -/
abbrev VRec := List (String × Value)

/-- Python `d.get(k)` / `d[k]` lookup (first and only entry with that key). -/
def alookup {κ α : Type} [DecidableEq κ] : List (κ × α) → κ → Option α
  | [], _ => none
  | p :: d, k => if p.1 = k then some p.2 else alookup d k

/-- Key-membership test for the association list. -/
def hasKey {κ α : Type} [DecidableEq κ] : List (κ × α) → κ → Bool
  | [], _ => false
  | p :: d, k => p.1 = k || hasKey d k

/-- Replace the value stored under an existing key, keeping its position. -/
def pyReplace {κ α : Type} [DecidableEq κ] : List (κ × α) → κ → α → List (κ × α)
  | [], _, _ => []
  | p :: d, k, v => if p.1 = k then (k, v) :: pyReplace d k v else p :: pyReplace d k v

/-- Python `d[k] = v`: update in place if the key is present, else append. -/
def pyInsert {κ α : Type} [DecidableEq κ] (d : List (κ × α)) (k : κ) (v : α) :
    List (κ × α) :=
  if hasKey d k then pyReplace d k v else d ++ [(k, v)]

/-! ## difflib similarity (SequenceMatcher without junk)

`get_close_matches` compares each candidate `a` against the target word `b`
with `SequenceMatcher.ratio`.  On the short strings involved there is no
autojunk, so the matcher reduces to the Ratcliff/Obershelp recursion below. -/

/-- Length of the longest common chunk of `a` and `b` ending exactly at
positions `i` and `j`, not reaching below `alo`/`blo` (the `j2len` chain of
`find_longest_match`). -/
def suffLen (a b : List Char) (alo blo : ℕ) (i j : ℕ) : ℕ :=
  if h₁ : alo ≤ i ∧ blo ≤ j ∧ a[i]? = b[j]? ∧ (a[i]?).isSome then
    if h₂ : i = alo ∨ j = blo then 1
    else 1 + suffLen a b alo blo (i - 1) (j - 1)
  else 0
termination_by i
decreasing_by
  push_neg at h₂
  omega

/-- Model of `find_longest_match` on the windows `[alo, ahi)` of `a` and `[blo, bhi)`
of `b` (no junk): scan positions in ascending order, keeping the first block
attaining the maximal size.  Returns `(besti, bestj, bestsize)`. -/
def flm (a b : List Char) (alo ahi blo bhi : ℕ) : ℕ × ℕ × ℕ :=
  (List.range' alo (ahi - alo)).foldl
    (fun best i =>
      (List.range' blo (bhi - blo)).foldl
        (fun best j =>
          let k := suffLen a b alo blo i j
          if best.2.2 < k then (i + 1 - k, j + 1 - k, k) else best)
        best)
    (alo, blo, 0)

/-- Total size of the matching blocks of `get_matching_blocks`, computed by
the recursive decomposition around each longest match.  The fuel argument
dominates the recursion depth. -/
def matchesTot (a b : List Char) : ℕ → ℕ → ℕ → ℕ → ℕ → ℕ
  | 0, _, _, _, _ => 0
  | fuel + 1, alo, ahi, blo, bhi =>
    let r := flm a b alo ahi blo bhi
    if r.2.2 = 0 then 0
    else
      matchesTot a b fuel alo r.1 blo r.2.1 + r.2.2 +
        matchesTot a b fuel (r.1 + r.2.2) ahi (r.2.1 + r.2.2) bhi

/-- The `M` of `SequenceMatcher.ratio`: total matched characters. -/
def matchesCount (a b : List Char) : ℕ :=
  matchesTot a b (a.length + b.length + 1) 0 a.length 0 b.length

/-- Model of `SequenceMatcher(None, a, b).ratio()`: `2 * M / T` (and `1` when both
strings are empty). -/
def ratioQ (a b : List Char) : ℚ :=
  if a.length + b.length = 0 then 1
  else 2 * (matchesCount a b : ℚ) / ((a.length : ℚ) + (b.length : ℚ))

/-- The selection of `heapq.nlargest(1, ...)` = `max` over `(score, string)`
pairs: keep the incumbent unless the challenger is strictly greater in the
lexicographic pair order. -/
def pickBest (w : List Char) : Option (List Char) → List (List Char) → Option (List Char)
  | best, [] => best
  | none, c :: cs => pickBest w (some c) cs
  | some b, c :: cs =>
    if ratioQ b w < ratioQ c w ∨ (ratioQ b w = ratioQ c w ∧ lexLt b c = true) then
      pickBest w (some c) cs
    else pickBest w (some b) cs

/-- Model of `difflib.get_close_matches(w, cats, n=1, cutoff=0.7)`, returning the
single best candidate (or `none` when no candidate scores at least 0.7). -/
def closeMatch1 (cats : List (List Char)) (w : List Char) : Option (List Char) :=
  pickBest w none (cats.filter (fun c => decide ((7 : ℚ)/10 ≤ ratioQ c w)))

/-! ## Reference index construction (src/logic.py lines 28-39) -/

/-- Outcome of processing one row of `factors_db` inside the build loop:
`.error ()` = an uncaught `KeyError`, `.ok none` = skipped by the
`except ValueError` handler, `.ok (some (key, val))` = inserted. -/
def rowParse (e : SRec) : Except Unit (Option (List Char × ℚ)) :=
  match alookup e "category" with
  | none => .error ()
  | some cs =>
    let key := pyStrip (pyLower cs)
    match alookup e "factor_kg_co2_per_unit" with
    | none => .error ()
    | some fs =>
      match parseFloat? fs with
      | none => .ok none
      | some v => .ok (some (key, v))

/-- The build loop `for entry in factors_db: ...` accumulating `factor_map`. -/
def buildGo (m : List (List Char × ℚ)) : List SRec → Except Unit (List (List Char × ℚ))
  | [] => .ok m
  | e :: rest =>
    match rowParse e with
    | .error u => .error u
    | .ok none => buildGo m rest
    | .ok (some (k, v)) => buildGo (pyInsert m k v) rest

/-- The `factor_map` as built by `get_emission_factor` from `factors_db`. -/
def buildFactorMap (db : List SRec) : Except Unit (List (List Char × ℚ)) :=
  buildGo [] db

/-- Lookup `factor_map[category]` for a category known to be present. -/
def fmGet (m : List (List Char × ℚ)) (k : List Char) : ℚ :=
  (alookup m k).getD 0

/-! ## The matcher (src/logic.py `get_emission_factor`) -/

/-- The substring tier: first category (in insertion order) occurring inside
the cleaned description. -/
def firstSubstrCat (clean : List Char) : List (List Char) → Option (List Char)
  | [] => none
  | c :: cs => if isSubstr c clean then some c else firstSubstrCat clean cs

/-- The fuzzy tier: words left to right, stopping at the first word with a
qualifying close match. -/
def fuzzyScan (cats : List (List Char)) : List (List Char) → Option (List Char)
  | [] => none
  | w :: ws =>
    match closeMatch1 cats w with
    | some c => some c
    | none => fuzzyScan cats ws

/-- The matcher `get_emission_factor(item_description, factors_db)`. -/
def get_emission_factor (item_description : List Char) (factors_db : List SRec) :
    Except Unit ℚ :=
  let clean_desc := pyNormalize item_description
  match buildFactorMap factors_db with
  | .error u => .error u
  | .ok factor_map =>
    let known_categories := factor_map.map (fun p => p.1)
    match firstSubstrCat clean_desc known_categories with
    | some category => .ok (fmGet factor_map category)
    | none =>
      match fuzzyScan known_categories (pySplit clean_desc) with
      | some best_match => .ok (fmGet factor_map best_match)
      | none => .ok 0

/-! ## The calculator (src/logic.py `calculate_invoice_emissions`) -/

/-- Extraction `row.get('item_description', 'Unknown')`. -/
def descOf (row : SRec) : List Char :=
  (alookup row "item_description").getD ("Unknown".toList)

/-- Parsing `float(row.get('quantity', 1))` with the `except ValueError: qty = 1.0`
handler. -/
def qtyOf (row : SRec) : ℚ :=
  match alookup row "quantity" with
  | none => 1
  | some qs =>
    match parseFloat? qs with
    | some q => q
    | none => 1

/-- The `row.copy()` of a CSV row, as the base of the enriched record. -/
def strifyRec : SRec → VRec
  | [] => []
  | p :: d => (p.1, Value.str p.2) :: strifyRec d

/-- One iteration of the calculator loop: match, derive, copy, append. -/
def processRow (row : SRec) (db : List SRec) : Except Unit VRec :=
  match get_emission_factor (descOf row) db with
  | .error u => .error u
  | .ok factor =>
    let total := qtyOf row * factor
    let new_row := strifyRec row
    .ok (pyInsert (pyInsert new_row "matched_factor" (Value.num factor))
          "total_line_co2" (Value.num total))

/-- The calculator `calculate_invoice_emissions(invoice_data, factors_db)`. -/
def calculate_invoice_emissions (invoice_data : List SRec) (factors_db : List SRec) :
    Except Unit (List VRec) :=
  match invoice_data with
  | [] => .ok []
  | row :: rest =>
    match processRow row factors_db with
    | .error u => .error u
    | .ok e =>
      match calculate_invoice_emissions rest factors_db with
      | .error u => .error u
      | .ok es => .ok (e :: es)

/-! ## The aggregator (src/analytics.py `generate_text_report`) -/

/-- The main report loop, threading `total_co2`, `highest_val`,
`highest_item`.  `row['total_line_co2']` missing is a `KeyError` and a
non-numeric value breaks the `+=`, both modelled as `.error ()`;
`row['item_description']` is only read when a new maximum is found. -/
def mainLoop : List VRec → ℚ → ℚ → Option Value → Except Unit (ℚ × ℚ × Option Value)
  | [], t, hv, hi => .ok (t, hv, hi)
  | r :: rest, t, hv, hi =>
    match alookup r "total_line_co2" with
    | some (Value.num co2) =>
      if hv < co2 then
        match alookup r "item_description" with
        | some d => mainLoop rest (t + co2) co2 (some d)
        | none => .error ()
      else mainLoop rest (t + co2) hv hi
    | _ => .error ()

/-- Python `row['matched_factor'] == 0`: numeric equality for numbers, and
`False` (not an error) for strings. -/
def pyEqZero : Value → Bool
  | Value.num q => q = 0
  | Value.str _ => false

/-- The `sum(1 for row in processed_data if row['matched_factor'] == 0)` pass. -/
def unmatchedLoop : List VRec → Except Unit ℕ
  | [] => .ok 0
  | r :: rest =>
    match alookup r "matched_factor" with
    | none => .error ()
    | some v =>
      match unmatchedLoop rest with
      | .error u => .error u
      | .ok n => .ok ((if pyEqZero v then 1 else 0) + n)

/-- The three aggregate values computed by `generate_text_report`:
`(total_co2, highest_item, unmatched_count)`.  (Rendering to the console is
outside the model; `highest_val` starts at `-1.0` and `highest_item` at
`None` as in the source.) -/
def generate_text_report (processed_data : List VRec) :
    Except Unit (ℚ × Option Value × ℕ) :=
  match mainLoop processed_data 0 (-1) none with
  | .error u => .error u
  | .ok (total, _, hitem) =>
    match unmatchedLoop processed_data with
    | .error u => .error u
    | .ok n => .ok (total, hitem, n)

/-! ## Spec-side auxiliary definitions -/

/-- The last record of `db` (in input order) that successfully parses to the
normalized key `k`, if any: the value "last-write-wins" leaves in the index. -/
def lastGood (db : List SRec) (k : List Char) : Option ℚ :=
  (db.filterMap (fun e =>
    match rowParse e with
    | .ok (some p) => if p.1 = k then some p.2 else none
    | _ => none)).getLast?

/-- The `total_line_co2` of an enriched row (0 when absent or non-numeric;
the claims only use it on rows where it is present and numeric). -/
def rowCo2 (r : VRec) : ℚ :=
  match alookup r "total_line_co2" with
  | some (Value.num q) => q
  | _ => 0

/-- The `item_description` of an enriched row. -/
def rowDesc (r : VRec) : Option Value :=
  alookup r "item_description"

/-- A row on which the report loop cannot raise: numeric `total_line_co2`,
and `item_description` and `matched_factor` present. -/
def goodRow (r : VRec) : Prop :=
  (∃ q, alookup r "total_line_co2" = some (Value.num q)) ∧
    (∃ d, alookup r "item_description" = some d) ∧
    (∃ v, alookup r "matched_factor" = some v)

/-- Running maximum of `total_line_co2` starting from `hv`. -/
def foldMax (hv : ℚ) (rows : List VRec) : ℚ :=
  rows.foldl (fun m r => max m (rowCo2 r)) hv

/-- The `(highest_val, highest_item)` state machine of the report loop,
isolated from the total and the error cases. -/
def hiFold (st : ℚ × Option Value) (rows : List VRec) : ℚ × Option Value :=
  rows.foldl (fun p r => if p.1 < rowCo2 r then (rowCo2 r, rowDesc r) else p) st

/-- The contribution of one raw record to the index under key `k`. -/
def entryVal (e : SRec) (k : List Char) : Option ℚ :=
  match rowParse e with
  | .ok (some p) => if p.1 = k then some p.2 else none
  | _ => none

/-- The enriched record produced for a row when the reference table is
empty: every factor is the 0.0 sentinel. -/
def enrich0 (row : SRec) : VRec :=
  pyInsert (pyInsert (strifyRec row) "matched_factor" (Value.num 0))
    "total_line_co2" (Value.num 0)

deriving instance DecidableEq for Except

/-! ## Dictionary lemmas -/

theorem alookup_pyReplace_self {κ α : Type} [DecidableEq κ] (d : List (κ × α)) (k : κ)
    (v : α) : alookup (pyReplace d k v) k = if hasKey d k then some v else none := by
  induction d with
  | nil => rfl
  | cons p d ih =>
    by_cases h : p.1 = k
    · simp [pyReplace, alookup, hasKey, h]
    · simp [pyReplace, alookup, hasKey, h, ih]

theorem alookup_pyReplace_ne {κ α : Type} [DecidableEq κ] (d : List (κ × α)) (k k' : κ)
    (v : α) (hne : k' ≠ k) : alookup (pyReplace d k v) k' = alookup d k' := by
  induction d with
  | nil => rfl
  | cons p d ih =>
    by_cases h : p.1 = k
    · have : k ≠ k' := fun hh => hne hh.symm
      simp [pyReplace, alookup, h, this, ih]
    · by_cases h' : p.1 = k'
      · simp [pyReplace, alookup, h, h', hne]
      · simp [pyReplace, alookup, h, h', ih]

theorem alookup_none_of_not_hasKey {κ α : Type} [DecidableEq κ] (d : List (κ × α)) (k : κ)
    (h : hasKey d k = false) : alookup d k = none := by
  induction d with
  | nil => rfl
  | cons p d ih =>
    simp only [hasKey, Bool.or_eq_false_iff, decide_eq_false_iff_not] at h
    simp [alookup, h.1, ih h.2]

theorem alookup_append_single {κ α : Type} [DecidableEq κ] (d : List (κ × α)) (k k' : κ)
    (v : α) :
    alookup (d ++ [(k, v)]) k' =
      (alookup d k').or (if k = k' then some v else none) := by
  induction d with
  | nil => simp [alookup]
  | cons p d ih =>
    by_cases h : p.1 = k'
    · simp [alookup, h]
    · simp [alookup, h, ih]

/-- The master lookup law for Python dict assignment. -/
theorem alookup_pyInsert {κ α : Type} [DecidableEq κ] (d : List (κ × α)) (k k' : κ)
    (v : α) :
    alookup (pyInsert d k v) k' = if k' = k then some v else alookup d k' := by
  unfold pyInsert
  by_cases hk : hasKey d k
  · simp only [hk, if_true]
    by_cases h : k' = k
    · subst h
      simp [alookup_pyReplace_self, hk]
    · simp [alookup_pyReplace_ne d k k' v h, h]
  · have hk' : hasKey d k = false := by simpa using hk
    simp only [hk', Bool.false_eq_true, if_false]
    rw [alookup_append_single]
    by_cases h : k' = k
    · subst h
      simp [alookup_none_of_not_hasKey d k' (by simpa using hk)]
    · have : k ≠ k' := fun hh => h hh.symm
      simp [h, this]

theorem alookup_strifyRec (row : SRec) (k : String) :
    alookup (strifyRec row) k = (alookup row k).map Value.str := by
  induction row with
  | nil => rfl
  | cons p d ih =>
    by_cases h : p.1 = k
    · simp [strifyRec, alookup, h]
    · simp [strifyRec, alookup, h, ih]

/-! ## Substring-tier lemmas -/

theorem firstSubstrCat_eq_some (clean c : List Char) (cs₁ cs₂ : List (List Char))
    (h₁ : ∀ x ∈ cs₁, isSubstr x clean = false) (hc : isSubstr c clean = true) :
    firstSubstrCat clean (cs₁ ++ c :: cs₂) = some c := by
  induction cs₁ with
  | nil => simp [firstSubstrCat, hc]
  | cons x xs ih =>
    have hx : isSubstr x clean = false := h₁ x (by simp)
    simp only [List.cons_append, firstSubstrCat, hx]
    exact ih (fun y hy => h₁ y (by simp [hy]))

theorem firstSubstrCat_eq_none (clean : List Char) (cs : List (List Char))
    (h : ∀ x ∈ cs, isSubstr x clean = false) : firstSubstrCat clean cs = none := by
  induction cs with
  | nil => rfl
  | cons x xs ih =>
    have hx : isSubstr x clean = false := h x (by simp)
    simp only [firstSubstrCat, hx]
    exact ih (fun y hy => h y (by simp [hy]))

/-! ## Fuzzy-tier lemmas -/

theorem fuzzyScan_eq_some (cats : List (List Char)) (w c : List Char)
    (ws₁ ws₂ : List (List Char)) (h₁ : ∀ x ∈ ws₁, closeMatch1 cats x = none)
    (hw : closeMatch1 cats w = some c) :
    fuzzyScan cats (ws₁ ++ w :: ws₂) = some c := by
  induction ws₁ with
  | nil => simp [fuzzyScan, hw]
  | cons x xs ih =>
    have hx : closeMatch1 cats x = none := h₁ x (by simp)
    simp only [List.cons_append, fuzzyScan, hx]
    exact ih (fun y hy => h₁ y (by simp [hy]))

theorem pickBest_sound (w : List Char) :
    ∀ (l : List (List Char)) (b r : List Char), pickBest w (some b) l = some r →
      (r = b ∨ r ∈ l) ∧ ratioQ b w ≤ ratioQ r w ∧ ∀ x ∈ l, ratioQ x w ≤ ratioQ r w := by
  intro l
  induction l with
  | nil =>
    intro b r h
    simp only [pickBest, Option.some.injEq] at h
    subst h
    exact ⟨Or.inl rfl, le_refl _, by simp⟩
  | cons c cs ih =>
    intro b r h
    simp only [pickBest] at h
    split at h
    · rename_i hcond
      obtain ⟨hmem, hle, hall⟩ := ih c r h
      have hbc : ratioQ b w ≤ ratioQ c w := by
        rcases hcond with hlt | ⟨heq, _⟩
        · exact le_of_lt hlt
        · exact le_of_eq heq
      refine ⟨Or.inr ?_, le_trans hbc hle, ?_⟩
      · rcases hmem with rfl | hm
        · simp
        · simp [hm]
      · intro x hx
        rcases List.mem_cons.mp hx with rfl | hm
        · exact hle
        · exact hall x hm
    · rename_i hcond
      push_neg at hcond
      have hcb : ratioQ c w ≤ ratioQ b w := hcond.1
      obtain ⟨hmem, hle, hall⟩ := ih b r h
      refine ⟨?_, hle, ?_⟩
      · rcases hmem with rfl | hm
        · exact Or.inl rfl
        · exact Or.inr (by simp [hm])
      · intro x hx
        rcases List.mem_cons.mp hx with rfl | hm
        · exact le_trans hcb hle
        · exact hall x hm

theorem closeMatch1_sound (cats : List (List Char)) (w c : List Char)
    (h : closeMatch1 cats w = some c) :
    c ∈ cats ∧ (7 : ℚ)/10 ≤ ratioQ c w ∧
      ∀ x ∈ cats, (7 : ℚ)/10 ≤ ratioQ x w → ratioQ x w ≤ ratioQ c w := by
  unfold closeMatch1 at h
  rcases hl : cats.filter (fun c => decide ((7 : ℚ)/10 ≤ ratioQ c w)) with _ | ⟨c₀, cs⟩
  · rw [hl] at h
    simp [pickBest] at h
  · rw [hl] at h
    simp only [pickBest] at h
    obtain ⟨hmem, hle, hall⟩ := pickBest_sound w cs c₀ c h
    have hcfil : c ∈ cats.filter (fun c => decide ((7 : ℚ)/10 ≤ ratioQ c w)) := by
      rw [hl]
      rcases hmem with rfl | hm
      · simp
      · simp [hm]
    have hcm := List.mem_filter.mp hcfil
    refine ⟨hcm.1, by simpa using hcm.2, ?_⟩
    intro x hx hcut
    have hxfil : x ∈ cats.filter (fun c => decide ((7 : ℚ)/10 ≤ ratioQ c w)) :=
      List.mem_filter.mpr ⟨hx, by simpa using hcut⟩
    rw [hl] at hxfil
    rcases List.mem_cons.mp hxfil with rfl | hm
    · exact hle
    · exact hall x hm

/-! ## Reference-index lemmas -/

theorem getLast?_cons_or {α : Type} (x : α) (l : List α) :
    (x :: l).getLast? = l.getLast?.or (some x) := by
  cases l with
  | nil => rfl
  | cons y ys =>
    rw [List.getLast?_cons_cons]
    cases h : (y :: ys).getLast? with
    | some z => simp [Option.or]
    | none =>
      have hne : (y :: ys) ≠ ([] : List α) := by simp
      rw [← List.getLast?_isSome] at hne
      rw [h] at hne
      simp at hne

theorem lastGood_nil (k : List Char) : lastGood [] k = none := rfl

theorem lastGood_cons (e : SRec) (db : List SRec) (k : List Char) :
    lastGood (e :: db) k = (lastGood db k).or (entryVal e k) := by
  unfold lastGood entryVal
  rw [List.filterMap_cons]
  rcases h : rowParse e with u | o
  · simp [h]
  · rcases o with _ | p
    · simp [h]
    · by_cases hk : p.1 = k
      · simp only [h, hk, if_true]
        exact getLast?_cons_or p.2 _
      · simp [h, hk]

theorem buildGo_lookup :
    ∀ (db : List SRec) (m fm : List (List Char × ℚ)), buildGo m db = .ok fm →
      ∀ k, alookup fm k = (lastGood db k).or (alookup m k) := by
  intro db
  induction db with
  | nil =>
    intro m fm h k
    simp only [buildGo, Except.ok.injEq] at h
    subst h
    simp [lastGood_nil, Option.or]
  | cons e rest ih =>
    intro m fm h k
    simp only [buildGo] at h
    rcases hr : rowParse e with u | o
    · rw [hr] at h
      exact absurd h (by simp)
    · rw [hr] at h
      rcases o with _ | ⟨k', v⟩
      · rw [ih m fm h k, lastGood_cons]
        have he : entryVal e k = none := by simp [entryVal, hr]
        rw [he, Option.or_none]
      · rw [ih (pyInsert m k' v) fm h k, lastGood_cons, alookup_pyInsert,
          Option.or_assoc]
        have he : entryVal e k = if k' = k then some v else none := by
          simp [entryVal, hr]
        rw [he]
        by_cases hk : k = k'
        · subst hk
          simp [Option.or]
        · have hk' : ¬k' = k := fun hh => hk hh.symm
          simp [hk, hk', Option.or]

/-- Looking up the finished index is exactly "the last successfully parsed
record with that normalized key wins". -/
theorem buildFactorMap_lookup (db : List SRec) (fm : List (List Char × ℚ))
    (h : buildFactorMap db = .ok fm) (k : List Char) :
    alookup fm k = lastGood db k := by
  rw [buildGo_lookup db [] fm h k]
  simp [alookup, Option.or_none]

theorem buildGo_append (m : List (List Char × ℚ)) (db₁ db₂ : List SRec) :
    buildGo m (db₁ ++ db₂) =
      match buildGo m db₁ with
      | .error u => .error u
      | .ok m' => buildGo m' db₂ := by
  induction db₁ generalizing m with
  | nil => simp [buildGo]
  | cons e rest ih =>
    simp only [List.cons_append, buildGo]
    rcases hr : rowParse e with u | o
    · rfl
    · rcases o with _ | ⟨k', v⟩
      · exact ih m
      · exact ih (pyInsert m k' v)

theorem rowParse_ok_of_fields (e : SRec) (hc : ∃ c, alookup e "category" = some c)
    (hf : ∃ s, alookup e "factor_kg_co2_per_unit" = some s) :
    ∃ o, rowParse e = .ok o := by
  obtain ⟨c, hc⟩ := hc
  obtain ⟨s, hs⟩ := hf
  rcases hp : parseFloat? s with _ | v <;> simp [rowParse, hc, hs, hp]

theorem buildGo_ok_of_fields :
    ∀ (db : List SRec) (m : List (List Char × ℚ)),
      (∀ e ∈ db, (∃ c, alookup e "category" = some c) ∧
        (∃ s, alookup e "factor_kg_co2_per_unit" = some s)) →
      ∃ fm, buildGo m db = .ok fm := by
  intro db
  induction db with
  | nil => exact fun m _ => ⟨m, rfl⟩
  | cons e rest ih =>
    intro m hdb
    obtain ⟨o, ho⟩ := rowParse_ok_of_fields e (hdb e (by simp)).1 (hdb e (by simp)).2
    have hrest : ∀ e' ∈ rest, (∃ c, alookup e' "category" = some c) ∧
        (∃ s, alookup e' "factor_kg_co2_per_unit" = some s) :=
      fun e' he' => hdb e' (by simp [he'])
    rcases o with _ | ⟨k, v⟩
    · obtain ⟨fm, hfm⟩ := ih m hrest
      exact ⟨fm, by simp [buildGo, ho, hfm]⟩
    · obtain ⟨fm, hfm⟩ := ih (pyInsert m k v) hrest
      exact ⟨fm, by simp [buildGo, ho, hfm]⟩

/-! ## Matcher basics -/

theorem closeMatch1_nil_cats (w : List Char) : closeMatch1 [] w = none := rfl

theorem fuzzyScan_nil_cats : ∀ ws : List (List Char), fuzzyScan [] ws = none
  | [] => rfl
  | w :: ws => by
    simp only [fuzzyScan, closeMatch1_nil_cats]
    exact fuzzyScan_nil_cats ws

/-- With a successfully built index, the matcher always returns a value
(no exception can arise past the build loop). -/
theorem gef_ok_of_build (desc : List Char) (db : List SRec)
    (fm : List (List Char × ℚ)) (h : buildFactorMap db = .ok fm) :
    ∃ q, get_emission_factor desc db = .ok q := by
  rcases h1 : firstSubstrCat (pyNormalize desc) (fm.map (fun p => p.1)) with _ | c
  · rcases h2 : fuzzyScan (fm.map (fun p => p.1)) (pySplit (pyNormalize desc)) with _ | c
    · exact ⟨0, by simp [get_emission_factor, h, h1, h2]⟩
    · exact ⟨fmGet fm c, by simp [get_emission_factor, h, h1, h2]⟩
  · exact ⟨fmGet fm c, by simp [get_emission_factor, h, h1]⟩

/-- On the empty reference table the matcher returns the 0.0 sentinel. -/
theorem gef_nil_db (desc : List Char) : get_emission_factor desc [] = .ok 0 := by
  have h : buildFactorMap ([] : List SRec) = .ok [] := rfl
  simp [get_emission_factor, h, firstSubstrCat, fuzzyScan_nil_cats]

/-! ## Calculator lemmas -/

theorem processRow_eq (row : SRec) (db : List SRec) (f : ℚ)
    (h : get_emission_factor (descOf row) db = .ok f) :
    processRow row db =
      .ok (pyInsert (pyInsert (strifyRec row) "matched_factor" (Value.num f))
        "total_line_co2" (Value.num (qtyOf row * f))) := by
  simp [processRow, h]

theorem processRow_ok_of_build (row : SRec) (db : List SRec)
    (fm : List (List Char × ℚ)) (h : buildFactorMap db = .ok fm) :
    ∃ e, processRow row db = .ok e := by
  obtain ⟨f, hf⟩ := gef_ok_of_build (descOf row) db fm h
  exact ⟨_, processRow_eq row db f hf⟩

theorem calculate_ok_of_build :
    ∀ (inv db : List SRec) (fm : List (List Char × ℚ)), buildFactorMap db = .ok fm →
      ∃ out, calculate_invoice_emissions inv db = .ok out := by
  intro inv
  induction inv with
  | nil => exact fun db fm _ => ⟨[], rfl⟩
  | cons row rest ih =>
    intro db fm h
    obtain ⟨e, he⟩ := processRow_ok_of_build row db fm h
    obtain ⟨out, hout⟩ := ih db fm h
    exact ⟨e :: out, by simp [calculate_invoice_emissions, he, hout]⟩

theorem calculate_elems :
    ∀ (inv : List SRec) (db : List SRec) (out : List VRec),
      calculate_invoice_emissions inv db = .ok out →
      out.length = inv.length ∧
        ∀ i (hi : i < inv.length) (ho : i < out.length),
          processRow (inv.get ⟨i, hi⟩) db = .ok (out.get ⟨i, ho⟩) := by
  intro inv
  induction inv with
  | nil =>
    intro db out h
    simp only [calculate_invoice_emissions, Except.ok.injEq] at h
    subst h
    exact ⟨rfl, fun i hi => absurd hi (by simp)⟩
  | cons row rest ih =>
    intro db out h
    simp only [calculate_invoice_emissions] at h
    rcases hp : processRow row db with u | e
    · rw [hp] at h
      exact absurd h (by simp)
    · rw [hp] at h
      rcases hc : calculate_invoice_emissions rest db with u | es
      · rw [hc] at h
        exact absurd h (by simp)
      · rw [hc] at h
        simp only [Except.ok.injEq] at h
        subst h
        obtain ⟨hlen, helem⟩ := ih db es hc
        refine ⟨by simp [hlen], ?_⟩
        intro i hi ho
        cases i with
        | zero => exact hp
        | succ j =>
          exact helem j (by simpa using hi) (by simpa using ho)

theorem processRow_nil_db (row : SRec) : processRow row [] = .ok (enrich0 row) := by
  have h := gef_nil_db (descOf row)
  simp [processRow, h, enrich0, mul_zero]

theorem calculate_nil_db :
    ∀ inv : List SRec, calculate_invoice_emissions inv [] = .ok (inv.map enrich0)
  | [] => rfl
  | row :: rest => by
    simp [calculate_invoice_emissions, processRow_nil_db, calculate_nil_db rest]

/-! ## Lookups on enriched records -/

theorem alookup_enriched_total (row : SRec) (f t : ℚ) :
    alookup (pyInsert (pyInsert (strifyRec row) "matched_factor" (Value.num f))
      "total_line_co2" (Value.num t)) "total_line_co2" = some (Value.num t) := by
  rw [alookup_pyInsert, if_pos rfl]

theorem alookup_enriched_matched (row : SRec) (f t : ℚ) :
    alookup (pyInsert (pyInsert (strifyRec row) "matched_factor" (Value.num f))
      "total_line_co2" (Value.num t)) "matched_factor" = some (Value.num f) := by
  rw [alookup_pyInsert, if_neg (by decide), alookup_pyInsert, if_pos rfl]

theorem alookup_enriched_other (row : SRec) (f t : ℚ) (k : String)
    (h₁ : k ≠ "matched_factor") (h₂ : k ≠ "total_line_co2") :
    alookup (pyInsert (pyInsert (strifyRec row) "matched_factor" (Value.num f))
      "total_line_co2" (Value.num t)) k = (alookup row k).map Value.str := by
  rw [alookup_pyInsert, if_neg h₂, alookup_pyInsert, if_neg h₁, alookup_strifyRec]

/-! ## Report-loop lemmas -/

theorem mainLoop_eq :
    ∀ (rows : List VRec) (t hv : ℚ) (hi : Option Value),
      (∀ r ∈ rows, (∃ q, alookup r "total_line_co2" = some (Value.num q)) ∧
        (∃ d, alookup r "item_description" = some d)) →
      mainLoop rows t hv hi =
        .ok (t + (rows.map rowCo2).sum, hiFold (hv, hi) rows) := by
  intro rows
  induction rows with
  | nil => intro t hv hi _; simp [mainLoop, hiFold]
  | cons r rest ih =>
    intro t hv hi hg
    obtain ⟨⟨q, hq⟩, ⟨d, hd⟩⟩ := hg r (by simp)
    have hrest : ∀ r' ∈ rest, (∃ q, alookup r' "total_line_co2" = some (Value.num q)) ∧
        (∃ d, alookup r' "item_description" = some d) :=
      fun r' hr' => hg r' (by simp [hr'])
    have hco2 : rowCo2 r = q := by simp [rowCo2, hq]
    have hdesc : rowDesc r = some d := hd
    simp only [mainLoop, hq]
    by_cases hlt : hv < q
    · simp only [if_pos hlt, hd]
      rw [ih (t + q) q (some d) hrest]
      have hstep : hiFold (hv, hi) (r :: rest) = hiFold (q, some d) rest := by
        simp [hiFold, hco2, hdesc, hlt]
      rw [hstep]
      simp [hco2, add_assoc]
    · rw [if_neg hlt, ih (t + q) hv hi hrest]
      have hstep : hiFold (hv, hi) (r :: rest) = hiFold (hv, hi) rest := by
        simp [hiFold, hco2, hlt]
      rw [hstep]
      simp [hco2, add_assoc]

theorem hiFold_fst :
    ∀ (rows : List VRec) (hv : ℚ) (hi : Option Value),
      (hiFold (hv, hi) rows).1 = foldMax hv rows := by
  intro rows
  induction rows with
  | nil => intro hv hi; rfl
  | cons r rest ih =>
    intro hv hi
    by_cases hlt : hv < rowCo2 r
    · have hmax : max hv (rowCo2 r) = rowCo2 r := max_eq_right (le_of_lt hlt)
      simp [hiFold, foldMax, hlt, hmax] at ih ⊢
      exact ih (rowCo2 r) (rowDesc r)
    · have hmax : max hv (rowCo2 r) = hv := max_eq_left (not_lt.mp hlt)
      simp [hiFold, foldMax, hlt, hmax] at ih ⊢
      exact ih hv hi

theorem hiFold_snd_const :
    ∀ (rows : List VRec) (hv : ℚ) (hi : Option Value),
      (∀ r ∈ rows, rowCo2 r ≤ hv) → (hiFold (hv, hi) rows).2 = hi := by
  intro rows
  induction rows with
  | nil => intro hv hi _; rfl
  | cons r rest ih =>
    intro hv hi hle
    have hr : rowCo2 r ≤ hv := hle r (by simp)
    have hlt : ¬hv < rowCo2 r := not_lt.mpr hr
    simp only [hiFold, List.foldl_cons, hlt, if_false]
    exact ih hv hi (fun r' hr' => hle r' (by simp [hr']))

theorem init_le_foldMax :
    ∀ (rows : List VRec) (hv : ℚ), hv ≤ foldMax hv rows := by
  intro rows
  induction rows with
  | nil => intro hv; exact le_refl hv
  | cons r rest ih =>
    intro hv
    calc hv ≤ max hv (rowCo2 r) := le_max_left _ _
    _ ≤ foldMax (max hv (rowCo2 r)) rest := ih _
    _ = foldMax hv (r :: rest) := rfl

theorem mem_le_foldMax :
    ∀ (rows : List VRec) (hv : ℚ) (x : VRec), x ∈ rows → rowCo2 x ≤ foldMax hv rows := by
  intro rows
  induction rows with
  | nil => intro hv x hx; exact absurd hx (by simp)
  | cons r rest ih =>
    intro hv x hx
    rcases List.mem_cons.mp hx with rfl | hm
    · calc rowCo2 x ≤ max hv (rowCo2 x) := le_max_right _ _
      _ ≤ foldMax (max hv (rowCo2 x)) rest := init_le_foldMax _ _
      _ = foldMax hv (x :: rest) := rfl
    · exact ih (max hv (rowCo2 r)) x hm

theorem hiFold_snd_some :
    ∀ (rows : List VRec) (hv : ℚ) (hi : Option Value),
      (∀ r ∈ rows, ∃ d, rowDesc r = some d) →
      ((∃ d, hi = some d) ∨ ∃ r ∈ rows, hv < rowCo2 r) →
      ∃ d, (hiFold (hv, hi) rows).2 = some d := by
  intro rows
  induction rows with
  | nil =>
    intro hv hi _ hcase
    rcases hcase with ⟨d, hd⟩ | ⟨r, hr, _⟩
    · exact ⟨d, hd⟩
    · exact absurd hr (by simp)
  | cons r rest ih =>
    intro hv hi hg hcase
    have hgrest : ∀ r' ∈ rest, ∃ d, rowDesc r' = some d :=
      fun r' hr' => hg r' (by simp [hr'])
    by_cases hlt : hv < rowCo2 r
    · obtain ⟨d, hd⟩ := hg r (by simp)
      have hstep : hiFold (hv, hi) (r :: rest) = hiFold (rowCo2 r, rowDesc r) rest := by
        simp [hiFold, hlt]
      rw [hstep]
      exact ih (rowCo2 r) (rowDesc r) hgrest (Or.inl ⟨d, hd⟩)
    · have hstep : hiFold (hv, hi) (r :: rest) = hiFold (hv, hi) rest := by
        simp [hiFold, hlt]
      rw [hstep]
      rcases hcase with hleft | ⟨x, hx, hxlt⟩
      · exact ih hv hi hgrest (Or.inl hleft)
      · rcases List.mem_cons.mp hx with rfl | hm
        · exact absurd hxlt hlt
        · exact ih hv hi hgrest (Or.inr ⟨x, hm, hxlt⟩)

theorem hiFold_first_max :
    ∀ (rows : List VRec) (hv : ℚ) (hi : Option Value) (r₀ : VRec),
      rows.find? (fun r => decide (rowCo2 r = foldMax hv rows)) = some r₀ →
      hv < foldMax hv rows →
      (hiFold (hv, hi) rows).2 = rowDesc r₀ := by
  intro rows
  induction rows with
  | nil =>
    intro hv hi r₀ hfind _
    exact absurd hfind (by simp)
  | cons r rest ih =>
    intro hv hi r₀ hfind hvM
    have hM : foldMax hv (r :: rest) = foldMax (max hv (rowCo2 r)) rest := rfl
    by_cases hc : rowCo2 r = foldMax hv (r :: rest)
    · have hfr : decide (rowCo2 r = foldMax hv (r :: rest)) = true := by
        simp [hc]
      simp only [List.find?_cons, hfr] at hfind
      injection hfind with hfind
      subst hfind
      have hlt : hv < rowCo2 r := by rw [hc]; exact hvM
      have hstep : hiFold (hv, hi) (r :: rest) = hiFold (rowCo2 r, rowDesc r) rest := by
        simp [hiFold, hlt]
      rw [hstep]
      apply hiFold_snd_const
      intro r' hr'
      calc rowCo2 r' ≤ foldMax (max hv (rowCo2 r)) rest := mem_le_foldMax rest _ r' hr'
      _ = foldMax hv (r :: rest) := rfl
      _ = rowCo2 r := hc.symm
    · have hfr : decide (rowCo2 r = foldMax hv (r :: rest)) = false := by
        simp [hc]
      simp only [List.find?_cons, hfr] at hfind
      have hcle : rowCo2 r ≤ foldMax hv (r :: rest) := mem_le_foldMax _ hv r (by simp)
      have hclt : rowCo2 r < foldMax hv (r :: rest) := lt_of_le_of_ne hcle hc
      have hmaxlt : max hv (rowCo2 r) < foldMax (max hv (rowCo2 r)) rest := by
        rw [← hM]
        exact max_lt hvM hclt
      rw [hM] at hfind
      by_cases hlt : hv < rowCo2 r
      · have hstep : hiFold (hv, hi) (r :: rest) = hiFold (rowCo2 r, rowDesc r) rest := by
          simp [hiFold, hlt]
        have hmr : max hv (rowCo2 r) = rowCo2 r := max_eq_right (le_of_lt hlt)
        rw [hstep, ← hmr]
        exact ih (max hv (rowCo2 r)) (rowDesc r) r₀ hfind hmaxlt
      · have hstep : hiFold (hv, hi) (r :: rest) = hiFold (hv, hi) rest := by
          simp [hiFold, hlt]
        have hmr : max hv (rowCo2 r) = hv := max_eq_left (not_lt.mp hlt)
        rw [hstep, ← hmr]
        exact ih (max hv (rowCo2 r)) hi r₀ (by rw [hmr]; rw [hmr] at hfind; exact hfind)
          hmaxlt

theorem unmatchedLoop_ok :
    ∀ rows : List VRec, (∀ r ∈ rows, ∃ v, alookup r "matched_factor" = some v) →
      unmatchedLoop rows =
        .ok (rows.countP (fun r => decide (alookup r "matched_factor" = some (Value.num 0)))) := by
  intro rows
  induction rows with
  | nil => intro _; rfl
  | cons r rest ih =>
    intro hg
    obtain ⟨v, hv⟩ := hg r (by simp)
    have hrest : ∀ r' ∈ rest, ∃ v, alookup r' "matched_factor" = some v :=
      fun r' hr' => hg r' (List.mem_cons_of_mem r hr')
    simp only [unmatchedLoop, hv, ih hrest]
    have hval : pyEqZero v = decide (some v = some (Value.num 0)) := by
      cases v with
      | num q =>
        simp only [pyEqZero]
        rcases eq_or_ne q 0 with rfl | hq
        · simp
        · simp [hq]
      | str s => simp [pyEqZero]
    rw [List.countP_cons]
    simp only [hv, hval]
    rw [Nat.add_comm]

/-- The aggregate triple of the report, under per-row wellformedness. -/
theorem report_eq (rows : List VRec) (hg : ∀ r ∈ rows, goodRow r) :
    generate_text_report rows =
      .ok ((rows.map rowCo2).sum, (hiFold (-1, none) rows).2,
        rows.countP (fun r => decide (alookup r "matched_factor" = some (Value.num 0)))) := by
  have h1 := mainLoop_eq rows 0 (-1) none (fun r hr => ⟨(hg r hr).1, (hg r hr).2.1⟩)
  have h2 := unmatchedLoop_ok rows (fun r hr => (hg r hr).2.2)
  simp [generate_text_report, h1, h2]

/-! ## Normalization and empty-input lemmas -/

theorem toLower_of_isWhitespace (c : Char) (h : c.isWhitespace = true) : c.toLower = c := by
  have h4 : c = ' ' ∨ c = '\t' ∨ c = '\r' ∨ c = '\n' := by
    simpa [Char.isWhitespace, or_assoc] using h
  rcases h4 with rfl | rfl | rfl | rfl <;> decide

theorem dropWhile_all_eq_nil {α : Type} (p : α → Bool) :
    ∀ l : List α, (∀ x ∈ l, p x = true) → l.dropWhile p = [] := by
  intro l
  induction l with
  | nil => intro _; rfl
  | cons x xs ih =>
    intro h
    rw [List.dropWhile_cons_of_pos (h x (by simp))]
    exact ih (fun y hy => h y (by simp [hy]))

theorem pyNormalize_of_whitespace (s : List Char) (h : ∀ c ∈ s, c.isWhitespace = true) :
    pyNormalize s = [] := by
  have hl : ∀ c ∈ pyLower s, c.isWhitespace = true := by
    intro c hc
    obtain ⟨x, hx, rfl⟩ := List.mem_map.mp hc
    rw [toLower_of_isWhitespace x (h x hx)]
    exact h x hx
  unfold pyNormalize pyStrip
  rw [dropWhile_all_eq_nil _ _ hl]
  rfl

theorem isSubstr_nil_hay (k : List Char) (h : k ≠ []) : isSubstr k [] = false := by
  cases k with
  | nil => exact absurd rfl h
  | cons c cs => rfl

theorem pySplit_nil : pySplit [] = [] := rfl

theorem rowParse_some_shape (e : SRec) (k : List Char) (v : ℚ)
    (h : rowParse e = .ok (some (k, v))) :
    ∃ cs fs, alookup e "category" = some cs ∧ k = pyStrip (pyLower cs) ∧
      alookup e "factor_kg_co2_per_unit" = some fs ∧ parseFloat? fs = some v := by
  unfold rowParse at h
  rcases hc : alookup e "category" with _ | cs
  · simp [hc] at h
  · rcases hf : alookup e "factor_kg_co2_per_unit" with _ | fs
    · simp [hc, hf] at h
    · rcases hp : parseFloat? fs with _ | v'
      · simp [hc, hf, hp] at h
      · simp only [hc, hf, hp, Except.ok.injEq, Option.some.injEq, Prod.mk.injEq] at h
        exact ⟨cs, fs, rfl, h.1.symm, rfl, by rw [hp, h.2]⟩

theorem build_skip_bad (db : List SRec) (e : SRec) (cs fs : List Char)
    (hc : alookup e "category" = some cs)
    (hf : alookup e "factor_kg_co2_per_unit" = some fs)
    (hp : parseFloat? fs = none) :
    buildFactorMap (db ++ [e]) = buildFactorMap db := by
  have hr : rowParse e = .ok none := by simp [rowParse, hc, hf, hp]
  unfold buildFactorMap
  rw [buildGo_append]
  rcases hb : buildGo [] db with u | m
  · rfl
  · simp [buildGo, hr]

/-! ## Claim theorems -/

/-- Claim C1: for every description and reference table, if some normalized
category key occurs as a contiguous substring of the normalized description,
`get_emission_factor` returns the factor of the first such category in the
index's insertion order; the fuzzy tier is never consulted (the function
returns from the substring tier, so the result is independent of any
similarity computation). -/
theorem substring_tier_first_category (desc : List Char) (db : List SRec)
    (fm : List (List Char × ℚ)) (cs₁ cs₂ : List (List Char)) (c : List Char)
    (hfm : buildFactorMap db = .ok fm)
    (hsplit : fm.map (fun p => p.1) = cs₁ ++ c :: cs₂)
    (hbefore : ∀ x ∈ cs₁, isSubstr x (pyNormalize desc) = false)
    (hc : isSubstr c (pyNormalize desc) = true) :
    get_emission_factor desc db = .ok (fmGet fm c) := by
  have hfi : firstSubstrCat (pyNormalize desc) (fm.map (fun p => p.1)) = some c := by
    rw [hsplit]
    exact firstSubstrCat_eq_some _ _ _ _ hbefore hc
  simp [get_emission_factor, hfm, hfi]

/-- Concrete check of the substring tier: category "coffee" with factor 5.0
is found inside "Premium Coffee Beans". -/
theorem substring_tier_first_category_check :
    get_emission_factor ("Premium Coffee Beans".toList)
      [[("category", "coffee".toList), ("factor_kg_co2_per_unit", "5.0".toList)]] =
      .ok 5 := by
  have h := substring_tier_first_category ("Premium Coffee Beans".toList)
    [[("category", "coffee".toList), ("factor_kg_co2_per_unit", "5.0".toList)]]
    [("coffee".toList, 5)] [] [] ("coffee".toList) (by with_unfolding_all decide) (by with_unfolding_all decide)
    (by intro x hx; simp at hx) (by with_unfolding_all decide)
  rw [h]
  with_unfolding_all decide

/-- Claim C2: when no category is a substring of the normalized description,
the words are tried strictly left to right and the factor of the top-ranked
qualifying candidate (similarity ratio at or above 7/10, ties resolved as by
the implementation) for the first word having any qualifying candidate is
returned — regardless of what later words would score.  The returned
candidate is a known category, scores at least 7/10 against that word, and
no other category scoring at least 7/10 against that word scores higher. -/
theorem fuzzy_tier_first_qualifying_word (desc : List Char) (db : List SRec)
    (fm : List (List Char × ℚ)) (ws₁ ws₂ : List (List Char)) (w c : List Char)
    (hfm : buildFactorMap db = .ok fm)
    (hnosub : ∀ k ∈ fm.map (fun p => p.1), isSubstr k (pyNormalize desc) = false)
    (hwords : pySplit (pyNormalize desc) = ws₁ ++ w :: ws₂)
    (hskip : ∀ x ∈ ws₁, closeMatch1 (fm.map (fun p => p.1)) x = none)
    (hhit : closeMatch1 (fm.map (fun p => p.1)) w = some c) :
    get_emission_factor desc db = .ok (fmGet fm c) ∧
      c ∈ fm.map (fun p => p.1) ∧ (7 : ℚ)/10 ≤ ratioQ c w ∧
      ∀ x ∈ fm.map (fun p => p.1), (7 : ℚ)/10 ≤ ratioQ x w → ratioQ x w ≤ ratioQ c w := by
  obtain ⟨hmem, hcut, hmax⟩ := closeMatch1_sound _ _ _ hhit
  have hfi : firstSubstrCat (pyNormalize desc) (fm.map (fun p => p.1)) = none :=
    firstSubstrCat_eq_none _ _ hnosub
  have hfz : fuzzyScan (fm.map (fun p => p.1)) (pySplit (pyNormalize desc)) = some c := by
    rw [hwords]
    exact fuzzyScan_eq_some _ _ _ _ _ hskip hhit
  exact ⟨by simp [get_emission_factor, hfm, hfi, hfz], hmem, hcut, hmax⟩

/-- Concrete check of the fuzzy tier: in "xyz Coffe" the word "xyz" yields no
qualifying candidate and the typo "coffe" then matches "coffee" (the later
word is reached only because the earlier one fails). -/
theorem fuzzy_tier_first_qualifying_word_check :
    get_emission_factor ("xyz Coffe".toList)
      [[("category", "laptop".toList), ("factor_kg_co2_per_unit", "250.0".toList)],
       [("category", "coffee".toList), ("factor_kg_co2_per_unit", "5.0".toList)]] =
      .ok 5 := by
  have h := fuzzy_tier_first_qualifying_word ("xyz Coffe".toList)
    [[("category", "laptop".toList), ("factor_kg_co2_per_unit", "250.0".toList)],
     [("category", "coffee".toList), ("factor_kg_co2_per_unit", "5.0".toList)]]
    [("laptop".toList, 250), ("coffee".toList, 5)]
    ["xyz".toList] [] ("coffe".toList) ("coffee".toList)
    (by with_unfolding_all decide) (by with_unfolding_all decide) (by with_unfolding_all decide) (by with_unfolding_all decide) (by with_unfolding_all decide)
  rw [h.1]
  with_unfolding_all decide

/-- Claim C3: the reference index maps each normalized key (the record's
category lowercased then stripped) to the factor of the last record in input
order that parses to that key; records whose factor fails numeric parsing
are skipped without error and contribute nothing. -/
theorem reference_index_build :
    (∀ (db : List SRec) (fm : List (List Char × ℚ)), buildFactorMap db = .ok fm →
      ∀ k, alookup fm k = lastGood db k) ∧
    (∀ (e : SRec) (k : List Char) (v : ℚ), rowParse e = .ok (some (k, v)) →
      ∃ cs fs, alookup e "category" = some cs ∧ k = pyStrip (pyLower cs) ∧
        alookup e "factor_kg_co2_per_unit" = some fs ∧ parseFloat? fs = some v) ∧
    (∀ (db : List SRec) (e : SRec) (cs fs : List Char),
      alookup e "category" = some cs → alookup e "factor_kg_co2_per_unit" = some fs →
      parseFloat? fs = none → buildFactorMap (db ++ [e]) = buildFactorMap db) :=
  ⟨buildFactorMap_lookup, rowParse_some_shape, build_skip_bad⟩

/-- Concrete check of last-write-wins with normalization and a skipped bad
record: keys "A", " a " and "a" collide; the unparseable third record is
ignored, so the index holds the second record's factor. -/
theorem reference_index_build_check :
    alookup [("a".toList, 2)] ("a".toList) =
      lastGood
        [[("category", "A".toList), ("factor_kg_co2_per_unit", "1".toList)],
         [("category", " a ".toList), ("factor_kg_co2_per_unit", "2".toList)],
         [("category", "a".toList), ("factor_kg_co2_per_unit", "bad".toList)]]
        ("a".toList) :=
  reference_index_build.1
    [[("category", "A".toList), ("factor_kg_co2_per_unit", "1".toList)],
     [("category", " a ".toList), ("factor_kg_co2_per_unit", "2".toList)],
     [("category", "a".toList), ("factor_kg_co2_per_unit", "bad".toList)]]
    [("a".toList, 2)] (by with_unfolding_all decide) ("a".toList)

/-- Claim C4: the report's total is the arithmetic sum of `total_line_co2`
(0 for the empty sequence, which is the empty sum); the unmatched count is
the number of rows whose `matched_factor` is exactly 0; `highest_item` is
absent exactly when no row strictly exceeds the initial -1 running maximum
(in particular for the empty sequence), and otherwise it is the description
of the earliest row attaining the maximal `total_line_co2`. -/
theorem aggregation_report_values (rows : List VRec) (T : ℚ) (H : Option Value) (U : ℕ)
    (hg : ∀ r ∈ rows, goodRow r)
    (h : generate_text_report rows = .ok (T, H, U)) :
    T = (rows.map rowCo2).sum ∧
      U = rows.countP (fun r => decide (alookup r "matched_factor" = some (Value.num 0))) ∧
      (H = none ↔ ∀ r ∈ rows, rowCo2 r ≤ -1) ∧
      ∀ r₀, rows.find? (fun r => decide (rowCo2 r = foldMax (-1) rows)) = some r₀ →
        -1 < rowCo2 r₀ → H = rowDesc r₀ := by
  have hrep := report_eq rows hg
  rw [h] at hrep
  simp only [Except.ok.injEq, Prod.mk.injEq] at hrep
  obtain ⟨hT, hH, hU⟩ := hrep
  refine ⟨hT, hU, ?_, ?_⟩
  · rw [hH]
    constructor
    · intro hnone r hr
      by_contra hgt
      push_neg at hgt
      obtain ⟨d, hd⟩ := hiFold_snd_some rows (-1) none
        (fun r' hr' => (hg r' hr').2.1) (Or.inr ⟨r, hr, hgt⟩)
      rw [hnone] at hd
      exact Option.noConfusion hd
    · intro hle
      exact hiFold_snd_const rows (-1) none hle
  · intro r₀ hfind hgt
    rw [hH]
    have hpr := List.find?_some hfind
    simp only [decide_eq_true_eq] at hpr
    have hvM : (-1 : ℚ) < foldMax (-1) rows := by rw [← hpr]; exact hgt
    exact hiFold_first_max rows (-1) none r₀ hfind hvM

/-- Concrete check of the aggregation: one wellformed row with co2 3 sums
to 3. -/
theorem aggregation_report_values_check :
    (3 : ℚ) = ([[("item_description", Value.str ("a".toList)),
        ("matched_factor", Value.num 0),
        ("total_line_co2", Value.num 3)]].map rowCo2).sum :=
  (aggregation_report_values
    [[("item_description", Value.str ("a".toList)), ("matched_factor", Value.num 0),
      ("total_line_co2", Value.num 3)]] 3 (some (Value.str ("a".toList))) 1
    (by
      intro r hr
      rw [List.mem_singleton] at hr
      subst hr
      exact ⟨⟨3, by with_unfolding_all decide⟩,
        ⟨Value.str ("a".toList), by with_unfolding_all decide⟩,
        ⟨Value.num 0, by with_unfolding_all decide⟩⟩)
    (by with_unfolding_all decide)).1

/-- Claim C10 (implicit): since the running maximum starts at -1.0 and the
comparison is strict, a non-empty enriched sequence in which every
`total_line_co2` is at most -1.0 yields a report with no `highest_item`. -/
theorem all_below_neg_one_no_highest (rows : List VRec)
    (hg : ∀ r ∈ rows, goodRow r) (_hne : rows ≠ [])
    (hle : ∀ r ∈ rows, rowCo2 r ≤ -1) :
    ∃ T U, generate_text_report rows = .ok (T, none, U) := by
  have hrep := report_eq rows hg
  have hH : (hiFold (-1, none) rows).2 = none := hiFold_snd_const rows (-1) none hle
  rw [hH] at hrep
  exact ⟨_, _, hrep⟩

/-- Concrete check: a single row with co2 -2 (as produced by a negative
quantity) reports no highest item although the sequence is non-empty. -/
theorem all_below_neg_one_no_highest_check :
    ∃ T U, generate_text_report
      [[("item_description", Value.str ("x".toList)), ("matched_factor", Value.num 1),
        ("total_line_co2", Value.num (-2))]] = .ok (T, none, U) :=
  all_below_neg_one_no_highest
    [[("item_description", Value.str ("x".toList)), ("matched_factor", Value.num 1),
      ("total_line_co2", Value.num (-2))]]
    (by
      intro r hr
      rw [List.mem_singleton] at hr
      subst hr
      exact ⟨⟨-2, by with_unfolding_all decide⟩,
        ⟨Value.str ("x".toList), by with_unfolding_all decide⟩,
        ⟨Value.num 1, by with_unfolding_all decide⟩⟩)
    (by simp)
    (by
      intro r hr
      rw [List.mem_singleton] at hr
      subst hr
      with_unfolding_all decide)

/-- Claim C7: the calculator returns one output per input, in order; the
i-th output is exactly the enrichment of the i-th input, with
`matched_factor` the matcher's result on that line's description and
`total_line_co2` the parsed quantity times that factor. -/
theorem calculator_preserves_order_and_derives (inv db : List SRec) (out : List VRec)
    (h : calculate_invoice_emissions inv db = .ok out) :
    out.length = inv.length ∧
      ∀ i (hi : i < inv.length) (ho : i < out.length),
        processRow (inv.get ⟨i, hi⟩) db = .ok (out.get ⟨i, ho⟩) ∧
        ∃ f, get_emission_factor (descOf (inv.get ⟨i, hi⟩)) db = .ok f ∧
          alookup (out.get ⟨i, ho⟩) "matched_factor" = some (Value.num f) ∧
          alookup (out.get ⟨i, ho⟩) "total_line_co2" =
            some (Value.num (qtyOf (inv.get ⟨i, hi⟩) * f)) := by
  obtain ⟨hlen, helem⟩ := calculate_elems inv db out h
  refine ⟨hlen, ?_⟩
  intro i hi ho
  have hp := helem i hi ho
  refine ⟨hp, ?_⟩
  rcases hg : get_emission_factor (descOf (inv.get ⟨i, hi⟩)) db with u | f
  · simp only [processRow, hg] at hp
    exact absurd hp (by simp)
  · have he := processRow_eq (inv.get ⟨i, hi⟩) db f hg
    rw [he] at hp
    simp only [Except.ok.injEq] at hp
    refine ⟨f, rfl, ?_, ?_⟩
    · rw [← hp]
      exact alookup_enriched_matched _ _ _
    · rw [← hp]
      exact alookup_enriched_total _ _ _

/-- Concrete check of order preservation and enrichment on a one-line
invoice. -/
theorem calculator_preserves_order_and_derives_check :
    ([[("item_description", Value.str ("Laptop".toList)),
        ("quantity", Value.str ("2".toList)),
        ("matched_factor", Value.num 250),
        ("total_line_co2", Value.num 500)]] : List VRec).length =
      ([[("item_description", "Laptop".toList), ("quantity", "2".toList)]] : List SRec).length :=
  (calculator_preserves_order_and_derives
    [[("item_description", "Laptop".toList), ("quantity", "2".toList)]]
    [[("category", "laptop".toList), ("factor_kg_co2_per_unit", "250.0".toList)]]
    [[("item_description", Value.str ("Laptop".toList)),
      ("quantity", Value.str ("2".toList)),
      ("matched_factor", Value.num 250),
      ("total_line_co2", Value.num 500)]]
    (by with_unfolding_all decide)).1

/-- Claim C8 counterexample: an input line that already carries a
`matched_factor` field does not keep that field's original value verbatim —
the calculator overwrites it with the computed factor. -/
theorem preexisting_matched_factor_overwritten :
    calculate_invoice_emissions [[("matched_factor", "keep".toList)]] [] =
      .ok [[("matched_factor", Value.num 0), ("total_line_co2", Value.num 0)]] ∧
    alookup [("matched_factor", Value.num 0), ("total_line_co2", Value.num 0)]
        "matched_factor" ≠
      (alookup [("matched_factor", "keep".toList)] "matched_factor").map Value.str :=
  ⟨by with_unfolding_all decide, by with_unfolding_all decide⟩

/-- Claim C8 (amended): the calculator leaves its input unmutated (the
output is built from a copy) and the emitted record preserves every original
field other than `matched_factor` and `total_line_co2` verbatim (arbitrary
extra fields pass through); `matched_factor` and `total_line_co2` are set to
the computed values, overwriting a pre-existing field of the same name
rather than preserving it. -/
theorem enrichment_preserves_other_fields (row : SRec) (db : List SRec) (e : VRec)
    (h : processRow row db = .ok e) :
    (∀ k, k ≠ "matched_factor" → k ≠ "total_line_co2" →
      alookup e k = (alookup row k).map Value.str) ∧
    ∃ f, get_emission_factor (descOf row) db = .ok f ∧
      alookup e "matched_factor" = some (Value.num f) ∧
      alookup e "total_line_co2" = some (Value.num (qtyOf row * f)) := by
  rcases hg : get_emission_factor (descOf row) db with u | f
  · simp only [processRow, hg] at h
    exact absurd h (by simp)
  · have he := processRow_eq row db f hg
    rw [he] at h
    simp only [Except.ok.injEq] at h
    refine ⟨?_, f, rfl, ?_, ?_⟩
    · intro k h1 h2
      rw [← h]
      exact alookup_enriched_other row f _ k h1 h2
    · rw [← h]
      exact alookup_enriched_matched _ _ _
    · rw [← h]
      exact alookup_enriched_total _ _ _

/-- Concrete check of field pass-through: a "vendor" field survives
enrichment verbatim. -/
theorem enrichment_preserves_other_fields_check :
    alookup [("vendor", Value.str ("acme".toList)),
      ("item_description", Value.str ("Laptop".toList)),
      ("matched_factor", Value.num 250), ("total_line_co2", Value.num 250)] "vendor" =
      (alookup [("vendor", "acme".toList), ("item_description", "Laptop".toList)]
        "vendor").map Value.str :=
  (enrichment_preserves_other_fields
    [("vendor", "acme".toList), ("item_description", "Laptop".toList)]
    [[("category", "laptop".toList), ("factor_kg_co2_per_unit", "250.0".toList)]]
    [("vendor", Value.str ("acme".toList)),
      ("item_description", Value.str ("Laptop".toList)),
      ("matched_factor", Value.num 250), ("total_line_co2", Value.num 250)]
    (by with_unfolding_all decide)).1 "vendor" (by decide) (by decide)

/-- Claim C9: the description used for matching defaults to the literal
"Unknown" when `item_description` is absent; the quantity defaults to
exactly 1 when the field is absent or fails numeric parsing; and neither
default path raises (processing a row only fails if the reference-table
build itself raises). -/
theorem defaults_for_missing_fields :
    (∀ (row : SRec) (db : List SRec) (f : ℚ), alookup row "item_description" = none →
      get_emission_factor ("Unknown".toList) db = .ok f →
      ∃ e, processRow row db = .ok e ∧ alookup e "matched_factor" = some (Value.num f)) ∧
    (∀ row : SRec, alookup row "quantity" = none → qtyOf row = 1) ∧
    (∀ (row : SRec) (qs : List Char), alookup row "quantity" = some qs →
      parseFloat? qs = none → qtyOf row = 1) ∧
    (∀ (row : SRec) (db : List SRec) (fm : List (List Char × ℚ)),
      buildFactorMap db = .ok fm → ∃ e, processRow row db = .ok e) := by
  refine ⟨?_, ?_, ?_, ?_⟩
  · intro row db f hdesc hf
    have hd : descOf row = "Unknown".toList := by simp [descOf, hdesc]
    rw [← hd] at hf
    exact ⟨_, processRow_eq row db f hf, alookup_enriched_matched row f _⟩
  · intro row h
    simp [qtyOf, h]
  · intro row qs h hp
    simp [qtyOf, h, hp]
  · intro row db fm h
    exact processRow_ok_of_build row db fm h

/-- Concrete check of the defaults: a row with no description and an
unparseable quantity is processed without error against an empty table. -/
theorem defaults_for_missing_fields_check :
    ∃ e, processRow [("quantity", "oops".toList)] [] = .ok e ∧
      alookup e "matched_factor" = some (Value.num 0) :=
  defaults_for_missing_fields.1 [("quantity", "oops".toList)] [] 0
    (by with_unfolding_all decide) (by with_unfolding_all decide)

/-- Claim C5 counterexample: a factor record with no `category` field makes
`get_emission_factor` — and hence `calculate_invoice_emissions` — raise an
uncaught KeyError (the `except ValueError` handler does not cover it),
contradicting "never raise for bad or missing per-row data". -/
theorem matcher_raises_on_missing_field :
    get_emission_factor ("Laptop".toList)
      [[("factor_kg_co2_per_unit", "1.0".toList)]] = .error () ∧
    calculate_invoice_emissions [[("item_description", "Laptop".toList)]]
      [[("factor_kg_co2_per_unit", "1.0".toList)]] = .error () :=
  ⟨by with_unfolding_all decide, by with_unfolding_all decide⟩

/-- Claim C5 (amended): provided every factor record carries both a
`category` and a `factor_kg_co2_per_unit` field, the matcher and the
calculator never raise — malformed values degrade row by row; and with an
empty reference table every line is enriched with the 0.0 sentinel, so
(whenever every line carries `item_description`, which the reporter indexes
directly) the report has total 0.0 and unmatched count equal to the full
line count. -/
theorem core_never_raises_with_field_complete_records (db : List SRec)
    (hdb : ∀ e ∈ db, (∃ c, alookup e "category" = some c) ∧
      (∃ s, alookup e "factor_kg_co2_per_unit" = some s)) :
    (∀ desc, ∃ q, get_emission_factor desc db = .ok q) ∧
    (∀ inv, ∃ out, calculate_invoice_emissions inv db = .ok out) ∧
    (db = [] → ∀ inv : List SRec,
      (∀ row ∈ inv, ∃ d, alookup row "item_description" = some d) →
      ∃ H, calculate_invoice_emissions inv db = .ok (inv.map enrich0) ∧
        generate_text_report (inv.map enrich0) = .ok (0, H, inv.length)) := by
  obtain ⟨fm, hfm⟩ := buildGo_ok_of_fields db [] hdb
  have hb : buildFactorMap db = .ok fm := hfm
  refine ⟨fun desc => gef_ok_of_build desc db fm hb,
    fun inv => calculate_ok_of_build inv db fm hb, ?_⟩
  rintro rfl inv hdesc
  have hg : ∀ r ∈ inv.map enrich0, goodRow r := by
    intro r hr
    obtain ⟨row, hrow, rfl⟩ := List.mem_map.mp hr
    obtain ⟨d, hd⟩ := hdesc row hrow
    refine ⟨⟨0, alookup_enriched_total row 0 0⟩, ⟨Value.str d, ?_⟩,
      ⟨Value.num 0, alookup_enriched_matched row 0 0⟩⟩
    have hoth := alookup_enriched_other row 0 0 "item_description"
      (by decide) (by decide)
    exact hoth.trans (by rw [hd]; rfl)
  have hrep := report_eq (inv.map enrich0) hg
  have hsum : ((inv.map enrich0).map rowCo2).sum = 0 := by
    apply List.sum_eq_zero
    intro x hx
    obtain ⟨r, hr, rfl⟩ := List.mem_map.mp hx
    obtain ⟨row, hrow, rfl⟩ := List.mem_map.mp hr
    simp [rowCo2,
      show alookup (enrich0 row) "total_line_co2" = some (Value.num 0) from
        alookup_enriched_total row 0 0]
  have hcnt : (inv.map enrich0).countP
      (fun r => decide (alookup r "matched_factor" = some (Value.num 0))) =
      (inv.map enrich0).length := by
    rw [List.countP_eq_length]
    intro r hr
    obtain ⟨row, hrow, rfl⟩ := List.mem_map.mp hr
    simp [show alookup (enrich0 row) "matched_factor" = some (Value.num 0) from
      alookup_enriched_matched row 0 0]
  rw [hsum, hcnt, List.length_map] at hrep
  exact ⟨(hiFold (-1, none) (inv.map enrich0)).2, calculate_nil_db inv, hrep⟩

/-- Concrete check: with a field-complete reference table the matcher cannot
raise, whatever the description. -/
theorem core_never_raises_with_field_complete_records_check :
    ∃ q, get_emission_factor ("gasoline".toList)
      [[("category", "laptop".toList), ("factor_kg_co2_per_unit", "250.0".toList)]] =
      .ok q :=
  (core_never_raises_with_field_complete_records
    [[("category", "laptop".toList), ("factor_kg_co2_per_unit", "250.0".toList)]]
    (by
      intro e he
      rw [List.mem_singleton] at he
      subst he
      exact ⟨⟨"laptop".toList, by with_unfolding_all decide⟩,
        ⟨"250.0".toList, by with_unfolding_all decide⟩⟩)).1 ("gasoline".toList)

/-- Claim C6 counterexample: a category of only whitespace normalizes to the
empty key; the empty key is a substring of the empty description, so
matching the empty description returns that factor (2.0), not the claimed
0.0 sentinel. -/
theorem empty_description_matches_empty_key :
    get_emission_factor []
      [[("category", "  ".toList), ("factor_kg_co2_per_unit", "2.0".toList)]] =
      .ok 2 ∧ (2 : ℚ) ≠ 0 :=
  ⟨by with_unfolding_all decide, by norm_num⟩

/-- Claim C6 (amended): for every reference table none of whose records
normalizes to the empty category key, matching an empty or whitespace-only
description (which normalizes to the empty string) returns the 0.0
sentinel: no non-empty key is a substring of the empty description, and the
fuzzy tier sees zero words. -/
theorem empty_description_no_match (desc : List Char) (db : List SRec)
    (fm : List (List Char × ℚ)) (hfm : buildFactorMap db = .ok fm)
    (hkeys : ∀ k ∈ fm.map (fun p => p.1), k ≠ [])
    (hws : ∀ c ∈ desc, c.isWhitespace = true) :
    get_emission_factor desc db = .ok 0 := by
  have hclean : pyNormalize desc = [] := pyNormalize_of_whitespace desc hws
  have hfi : firstSubstrCat (pyNormalize desc) (fm.map (fun p => p.1)) = none := by
    apply firstSubstrCat_eq_none
    intro x hx
    rw [hclean]
    exact isSubstr_nil_hay x (hkeys x hx)
  have hfz : fuzzyScan (fm.map (fun p => p.1)) (pySplit (pyNormalize desc)) = none := by
    rw [hclean, pySplit_nil]
    rfl
  simp [get_emission_factor, hfm, hfi, hfz]

/-- Concrete check: a whitespace-only description finds nothing in a table
with the non-empty key "laptop". -/
theorem empty_description_no_match_check :
    get_emission_factor ("   ".toList)
      [[("category", "laptop".toList), ("factor_kg_co2_per_unit", "250.0".toList)]] =
      .ok 0 :=
  empty_description_no_match ("   ".toList)
    [[("category", "laptop".toList), ("factor_kg_co2_per_unit", "250.0".toList)]]
    [("laptop".toList, 250)]
    (by with_unfolding_all decide) (by with_unfolding_all decide)
    (by with_unfolding_all decide)

end CO2
